import Mathlib

/-!
Verification of the Jsonary JSON record store (condition parser/evaluator and
query-builder mutation protocol), shallowly embedded from the TypeScript
source in `src/src/index.ts` and `src/unnamed/part_000` (operator constants).

Modelling conventions:
- JavaScript values that can appear in a record or in a parsed condition are
  modelled by `JVal`.  Numbers are modelled as exact rationals; IEEE-754
  rounding and the infinite values are outside the model (no claim under
  verification exercises them).  JavaScript arrays carry, besides their
  elements, a bag of non-index string properties, because the source's
  `setNestedValue` can attach such properties to an array it descends into.
- JavaScript property access also reaches prototype-inherited members
  (`toString`, `push`, ..., the `__proto__` accessor) and, on arrays, the
  `length` setter (resize or `RangeError`).  These are not representable as
  own data of a total value model; instead the catalogues
  `objectProtoNames`/`arrayProtoNames` pin the inherited member names
  (ECMAScript 2024), and every claim about dot-path resolution or nested
  writes carries a fence hypothesis (`pathFreeOfProto`, `setSegsSafe`)
  restricting it to the paths on which JavaScript property access coincides
  with the own-property access modelled here.
- Reference identity of record objects is modelled by value equality on the
  element type; where a claim is genuinely about reference identity
  (`QueryBuilder.delete`), the development is polymorphic in the element
  type, so that elements may be read as object identities.
- The process-wide memoisation cache of `parseCondition` stores exactly the
  result of the pure parse keyed by the raw string (the operator table is a
  constant), so the cached function is observationally the pure function;
  the embedding is that pure function.
-/

/-- JavaScript values occurring in records and parsed conditions.
`vUndefined` is the absent/undefined sentinel.  `vArr` carries the element list
and the list of non-index string properties of the array object. -/
inductive JVal where
  | vUndefined : JVal
  | vNull : JVal
  | vBool (b : Bool) : JVal
  | vNum (q : ℚ) : JVal
  | vStr (s : String) : JVal
  | vObj (fields : List (String × JVal)) : JVal
  | vArr (elems : List JVal) (props : List (String × JVal)) : JVal

mutual

def decEqJVal : (a b : JVal) → Decidable (a = b)
  | .vUndefined, .vUndefined => isTrue rfl
  | .vNull, .vNull => isTrue rfl
  | .vBool a, .vBool b =>
      match decEq a b with
      | isTrue h => isTrue (h ▸ rfl)
      | isFalse h => isFalse (fun hh => h (by cases hh; rfl))
  | .vNum a, .vNum b =>
      match decEq a b with
      | isTrue h => isTrue (h ▸ rfl)
      | isFalse h => isFalse (fun hh => h (by cases hh; rfl))
  | .vStr a, .vStr b =>
      match decEq a b with
      | isTrue h => isTrue (h ▸ rfl)
      | isFalse h => isFalse (fun hh => h (by cases hh; rfl))
  | .vObj fs, .vObj gs =>
      match decEqFields fs gs with
      | isTrue h => isTrue (h ▸ rfl)
      | isFalse h => isFalse (fun hh => h (by cases hh; rfl))
  | .vArr es ps, .vArr fs qs =>
      match decEqElems es fs, decEqFields ps qs with
      | isTrue h1, isTrue h2 => isTrue (h1 ▸ h2 ▸ rfl)
      | isFalse h1, _ => isFalse (fun hh => h1 (by cases hh; rfl))
      | _, isFalse h2 => isFalse (fun hh => h2 (by cases hh; rfl))
  | .vUndefined, .vNull | .vUndefined, .vBool _ | .vUndefined, .vNum _ | .vUndefined, .vStr _
  | .vUndefined, .vObj _ | .vUndefined, .vArr _ _ => isFalse (fun h => by cases h)
  | .vNull, .vUndefined | .vNull, .vBool _ | .vNull, .vNum _ | .vNull, .vStr _
  | .vNull, .vObj _ | .vNull, .vArr _ _ => isFalse (fun h => by cases h)
  | .vBool _, .vUndefined | .vBool _, .vNull | .vBool _, .vNum _ | .vBool _, .vStr _
  | .vBool _, .vObj _ | .vBool _, .vArr _ _ => isFalse (fun h => by cases h)
  | .vNum _, .vUndefined | .vNum _, .vNull | .vNum _, .vBool _ | .vNum _, .vStr _
  | .vNum _, .vObj _ | .vNum _, .vArr _ _ => isFalse (fun h => by cases h)
  | .vStr _, .vUndefined | .vStr _, .vNull | .vStr _, .vBool _ | .vStr _, .vNum _
  | .vStr _, .vObj _ | .vStr _, .vArr _ _ => isFalse (fun h => by cases h)
  | .vObj _, .vUndefined | .vObj _, .vNull | .vObj _, .vBool _ | .vObj _, .vNum _
  | .vObj _, .vStr _ | .vObj _, .vArr _ _ => isFalse (fun h => by cases h)
  | .vArr _ _, .vUndefined | .vArr _ _, .vNull | .vArr _ _, .vBool _
  | .vArr _ _, .vNum _ | .vArr _ _, .vStr _ | .vArr _ _, .vObj _ => isFalse (fun h => by cases h)

def decEqFields : (a b : List (String × JVal)) → Decidable (a = b)
  | [], [] => isTrue rfl
  | [], _ :: _ => isFalse (fun h => by cases h)
  | _ :: _, [] => isFalse (fun h => by cases h)
  | (k, v) :: xs, (k2, v2) :: ys =>
      match decEq k k2, decEqJVal v v2, decEqFields xs ys with
      | isTrue h1, isTrue h2, isTrue h3 => isTrue (by rw [h1, h2, h3])
      | isFalse h1, _, _ => isFalse (fun hh => h1 (by cases hh; rfl))
      | _, isFalse h2, _ => isFalse (fun hh => h2 (by cases hh; rfl))
      | _, _, isFalse h3 => isFalse (fun hh => h3 (by cases hh; rfl))

def decEqElems : (a b : List JVal) → Decidable (a = b)
  | [], [] => isTrue rfl
  | [], _ :: _ => isFalse (fun h => by cases h)
  | _ :: _, [] => isFalse (fun h => by cases h)
  | x :: xs, y :: ys =>
      match decEqJVal x y, decEqElems xs ys with
      | isTrue h1, isTrue h2 => isTrue (by rw [h1, h2])
      | isFalse h1, _ => isFalse (fun hh => h1 (by cases hh; rfl))
      | _, isFalse h2 => isFalse (fun hh => h2 (by cases hh; rfl))

end

instance : DecidableEq JVal := decEqJVal

/-- A record: the JavaScript `Record<string, unknown>` data items, as an
association list in property insertion order (JavaScript string-keyed
property order). -/
abbrev JRec := List (String × JVal)

/-- The whitespace characters stripped by JavaScript `String.prototype.trim`
and by `Number` string conversion (ASCII whitespace and NBSP; the more
exotic Unicode space code points never occur in the claims). -/
def jsWhitespaceChar (c : Char) : Bool :=
  c = ' ' || c = '\t' || c = '\n' || c = '\r' ||
    c = Char.ofNat 11 || c = Char.ofNat 12 || c = Char.ofNat 160

/-- JavaScript `trim` on a character list. -/
def jsTrimList (cs : List Char) : List Char :=
  ((cs.dropWhile jsWhitespaceChar).reverse.dropWhile jsWhitespaceChar).reverse

/-- JavaScript `String.prototype.trim`. -/
def jsTrim (s : String) : String :=
  (jsTrimList s.toList).asString

/-- `hasPre pat l` is true when the character list `l` starts with `pat`. -/
def hasPre : List Char → List Char → Bool
  | [], _ => true
  | _ :: _, [] => false
  | p :: ps, c :: cs => p == c && hasPre ps cs

/-- Scan for the first index (counting from `i`) at which `pat` occurs. -/
def idxOfAux (pat : List Char) : List Char → Nat → Option Nat
  | [], i => if hasPre pat [] then some i else none
  | l@(_ :: rest), i => if hasPre pat l then some i else idxOfAux pat rest (i + 1)

/-- JavaScript `String.prototype.indexOf`, as an `Option` instead of `-1`.
String indices are character positions (the claims use no surrogate pairs,
where UTF-16 indices would differ). -/
def jsIndexOf (s pat : String) : Option Nat :=
  idxOfAux pat.toList s.toList 0

/-- JavaScript `String.prototype.includes`: `indexOf` succeeds. -/
def jsIncludes (s pat : String) : Bool :=
  (jsIndexOf s pat).isSome

/-- JavaScript `String.prototype.startsWith`. -/
def jsStartsWithB (s pat : String) : Bool :=
  hasPre pat.toList s.toList

/-- JavaScript `String.prototype.endsWith`. -/
def jsEndsWithB (s pat : String) : Bool :=
  hasPre pat.toList.reverse s.toList.reverse

/-- Numeric value of a decimal digit character. -/
def digitVal (c : Char) : Nat := c.toNat - 48

/-- Value of a digit list in base 10. -/
def natOfDigits (cs : List Char) : Nat :=
  cs.foldl (fun a c => 10 * a + digitVal c) 0

/-- Value of a hexadecimal digit character. -/
def hexDigitVal (c : Char) : Nat :=
  if c.isDigit then digitVal c
  else if 'a' ≤ c && c ≤ 'f' then c.toNat - 'a'.toNat + 10
  else if 'A' ≤ c && c ≤ 'F' then c.toNat - 'A'.toNat + 10
  else 0

/-- Hexadecimal digit test. -/
def isHexDigitB (c : Char) : Bool :=
  c.isDigit || ('a' ≤ c && c ≤ 'f') || ('A' ≤ c && c ≤ 'F')

/-- Value of a digit list in the given base. -/
def natOfBase (base : Nat) (cs : List Char) : Nat :=
  cs.foldl (fun a c => base * a + hexDigitVal c) 0

/-- The decimal part of the JavaScript string numeric grammar: digits with
an optional decimal point, optional fraction digits and an optional signed
exponent, e.g. `12`, `12.`, `.5`, `3.25e-2`.  Yields the exact rational. -/
def parseDecCore (cs : List Char) : Option ℚ :=
  let ip := cs.takeWhile Char.isDigit
  let rest := cs.dropWhile Char.isDigit
  let hasDot : Bool := match rest with
    | '.' :: _ => true
    | _ => false
  let afterDot := if hasDot then rest.drop 1 else rest
  let fp := if hasDot then afterDot.takeWhile Char.isDigit else []
  let rest2 := if hasDot then afterDot.dropWhile Char.isDigit else rest
  if ip.isEmpty && fp.isEmpty then none
  else
    let m : Nat := natOfDigits (ip ++ fp)
    match rest2 with
    | [] => some (mkRat (m : Int) ((10 : Nat) ^ fp.length))
    | e :: r =>
      if e = 'e' || e = 'E' then
        let neg : Bool := match r with
          | '-' :: _ => true
          | _ => false
        let ds := match r with
          | '+' :: r2 => r2
          | '-' :: r2 => r2
          | _ => r
        if !ds.isEmpty && ds.all Char.isDigit then
          let ex := natOfDigits ds
          if neg then some (mkRat (m : Int) ((10 : Nat) ^ (fp.length + ex)))
          else some (mkRat ((m * 10 ^ ex : Nat) : Int) ((10 : Nat) ^ fp.length))
        else none
      else none

/-- Signed decimal literal. -/
def parseSignedDec : List Char → Option ℚ
  | '+' :: r => parseDecCore r
  | '-' :: r => (parseDecCore r).map (fun q => -q)
  | cs => parseDecCore cs

/-- Model of JavaScript `Number` applied to a string, restricted to finite
results: `none` plays the role of `NaN` (the code only ever tests
`isNaN(Number(value))`).  The whole-string numeric grammar: optional
whitespace, then a signed decimal literal or an unsigned hex/octal/binary
literal; the empty (or all-whitespace) string converts to `0`.  The
`Infinity` literals and IEEE rounding/overflow are outside this exact
rational model. -/
def jsToNumber (s : String) : Option ℚ :=
  let t := jsTrimList s.toList
  match t with
  | [] => some 0
  | '0' :: x :: r =>
    if x = 'x' || x = 'X' then
      if !r.isEmpty && r.all isHexDigitB then some ((natOfBase 16 r : Nat) : ℚ) else none
    else if x = 'o' || x = 'O' then
      if !r.isEmpty && r.all (fun c => '0' ≤ c && c ≤ '7') then some ((natOfBase 8 r : Nat) : ℚ) else none
    else if x = 'b' || x = 'B' then
      if !r.isEmpty && r.all (fun c => c = '0' || c = '1') then some ((natOfBase 2 r : Nat) : ℚ) else none
    else parseSignedDec t
  | _ => parseSignedDec t


/-- `path.includes('.')` — dot test on the character list (the iterator-based
library `String.contains` does not reduce well in the kernel). -/
def hasDotChar (s : String) : Bool :=
  s.toList.any (fun c => c == '.')

/-- Auxiliary split of a character list on `.`. -/
def splitDotAux : List Char → List Char → List String
  | [], acc => [acc.reverse.asString]
  | c :: cs, acc =>
      if c == '.' then acc.reverse.asString :: splitDotAux cs []
      else splitDotAux cs (c :: acc)

/-- `path.split('.')`: every dot separates, so empty segments are kept,
and the empty path splits to one empty segment, as in JavaScript. -/
def splitOnDot (s : String) : List String :=
  splitDotAux s.toList []

/-- Own object property read: the first binding of the key (JavaScript
object keys are unique; association lists are read first-match).  Reads of
prototype-inherited names, which JavaScript would resolve through the
prototype chain, are fenced out of the claims via `objectProtoNames` and
`pathFreeOfProto`. -/
def recGet (fs : JRec) (k : String) : Option JVal :=
  (fs.find? (fun p => p.1 == k)).map (fun p => p.2)

/-- `obj[k]`: an absent key reads as the undefined sentinel. -/
def recGetD (fs : JRec) (k : String) : JVal :=
  (recGet fs k).getD .vUndefined

/-- `obj[k] = v`: overwrite the existing binding in place, otherwise append
(JavaScript property insertion order). -/
def setKey : JRec → String → JVal → JRec
  | [], k, v => [(k, v)]
  | (k2, w) :: rest, k, v =>
      if k2 == k then (k2, v) :: rest else (k2, w) :: setKey rest k v

/-- The canonical array-index strings: `"0"`, or digits without a leading
zero, denoting a value below 2^32 - 1; any other string (including larger
canonical numerals) addresses an ordinary string property of the array
object, as in ECMAScript. -/
def canonicalIndex (s : String) : Option Nat :=
  let cs := s.toList
  if cs = ['0'] then some 0
  else if !cs.isEmpty && cs.all Char.isDigit && cs.head? != some '0' then
    let n := natOfDigits cs
    if n < 4294967295 then some n else none
  else none

/-- `typeof x === 'object' && x !== null`: maps and arrays. -/
def isObjLike : JVal → Bool
  | .vObj _ => true
  | .vArr _ _ => true
  | _ => false

/-- A map (plain object), as distinguished from an array by the spec's data
model. -/
def isMap : JVal → Bool
  | .vObj _ => true
  | _ => false

/-- An array. -/
def isArrB : JVal → Bool
  | .vArr _ _ => true
  | _ => false

/-- Combined `key in c` / `c[key]` read on a container: `some` when the key
is an own property, with the stored value.  On arrays: `length`, canonical
in-bounds indices, and non-index string properties.  JavaScript property
reads additionally traverse the prototype chain (`toString`, `push`, ...,
and the `__proto__` accessor); those members are catalogued in
`objectProtoNames`/`arrayProtoNames`, and every claim about dot-path
resolution carries a `pathFreeOfProto` hypothesis confining it to paths on
which the real read and this own-property read coincide. -/
def containerGetRaw : JVal → String → Option JVal
  | .vObj fs, k => recGet fs k
  | .vArr es ps, k =>
      if k == "length" then some (.vNum (es.length : ℚ))
      else
        match canonicalIndex k with
        | some i => es[i]?
        | none => recGet ps k
  | _, _ => none

/-- `c[key]`, reading an absent property as the undefined sentinel. -/
def containerGetD (c : JVal) (k : String) : JVal :=
  (containerGetRaw c k).getD .vUndefined

/-- The dot-path walk of `QueryBuilder.getNestedValue`: at each segment the
current value must be a non-null object (`typeof === 'object'`), else the
walk yields `undefined`; the final value is returned unchecked. -/
def resolveList : JVal → List String → JVal
  | c, [] => c
  | c, k :: ks => if isObjLike c then resolveList (containerGetD c k) ks else .vUndefined

/-- `QueryBuilder.getNestedValue` (src/src/index.ts:385-402): a path without
a dot is a direct property read; otherwise split on `.` and walk. -/
def getNestedValue (item : JRec) (path : String) : JVal :=
  if !(hasDotChar path) then recGetD item path
  else resolveList (.vObj item) (splitOnDot path)

/-- A parsed condition (`JsonaryCondition`): the operator is kept as its
symbol string, exactly as the source stores it. -/
structure JCond where
  field : String
  operator : String
  value : JVal
  deriving DecidableEq

/-- `Object.values(queryOperators)` in insertion order
(src/unnamed/part_000). -/
def queryOperatorsValues : List String :=
  ["=", "!=", ">", "<", ">=", "<=", "contains", "startsWith", "endsWith"]

/-- One step of a stable insertion sort for the comparator
`(a, b) => b.length - a.length`: `x` goes before the first element whose
length does not exceed it, so equal lengths keep their original order
(ECMAScript sort is stable). -/
def insDescLen (x : String) : List String → List String
  | [] => [x]
  | y :: ys => if y.length ≤ x.length then x :: y :: ys else y :: insDescLen x ys

/-- Stable sort by descending string length. -/
def sortDescLen : List String → List String
  | [] => []
  | x :: xs => insDescLen x (sortDescLen xs)

/-- `getOperatorsSorted()` (src/unnamed/part_000:24-26): operator symbols
sorted by descending length, stably. -/
def getOperatorsSorted : List String :=
  sortDescLen queryOperatorsValues

/-- `QueryBuilder.stripQuotes` (src/src/index.ts:489-498): remove one layer
of surrounding quotes when the string both starts and ends with the same
quote character. -/
def stripQuotes (s : String) : String :=
  let cs := s.toList
  let dq : Char := '"'
  let sq : Char := Char.ofNat 39
  if (hasPre [dq] cs && hasPre [dq] cs.reverse) || (hasPre [sq] cs && hasPre [sq] cs.reverse) then
    ((cs.drop 1).dropLast).asString
  else s

/-- `QueryBuilder.parseSpecialValue` (src/src/index.ts:439-455). -/
def parseSpecialValue (value : String) : JVal :=
  if value == "true" then .vBool true
  else if value == "false" then .vBool false
  else if value == "null" then .vNull
  else if value == "undefined" then .vUndefined
  else
    match jsToNumber value with
    | some q => if value != "" then .vNum q else .vStr value
    | none => .vStr value

/-- Character-position take on strings (`condition.substring(0, n)`). -/
def takeChars (s : String) (n : Nat) : String :=
  (s.toList.take n).asString

/-- Character-position drop on strings (`condition.substring(n)`). -/
def dropChars (s : String) (n : Nat) : String :=
  (s.toList.drop n).asString

/-- The operator loop of `parseCondition`: first operator of the list that
occurs in `s`, with the index of its first occurrence. -/
def findOpSplit : List String → String → Option (String × Nat)
  | [], _ => none
  | op :: ops, s =>
      match jsIndexOf s op with
      | some i => some (op, i)
      | none => findOpSplit ops s

/-- `QueryBuilder.parseCondition` (src/src/index.ts:410-431), with the
memoisation cache elided (it stores exactly the results of this pure
function, keyed by the raw string, over a constant operator table). -/
def parseCondition (condition : String) : Option JCond :=
  match findOpSplit getOperatorsSorted condition with
  | some (op, index) =>
      some { field := jsTrim (takeChars condition index)
             operator := op
             value := parseSpecialValue (stripQuotes (jsTrim (dropChars condition (index + op.toList.length)))) }
  | none => none

/-- JavaScript `===` restricted to the values the evaluator can compare: a
parsed condition value is never an object or an array, and `===` between an
object and any primitive is `false`, so object/array operands compare
`false` here. -/
def jsStrictEq : JVal → JVal → Bool
  | .vUndefined, .vUndefined => true
  | .vNull, .vNull => true
  | .vBool a, .vBool b => a == b
  | .vNum a, .vNum b => decide (a = b)
  | .vStr a, .vStr b => a == b
  | _, _ => false

/-- `typeof a === 'number' && typeof b === 'number' && p a b`. -/
def numGate (p : ℚ → ℚ → Bool) : JVal → JVal → Bool
  | .vNum a, .vNum b => p a b
  | _, _ => false

/-- `typeof a === 'string' && typeof b === 'string' && p a b`. -/
def strGate (p : String → String → Bool) : JVal → JVal → Bool
  | .vStr a, .vStr b => p a b
  | _, _ => false

/-- `QueryBuilder.evaluateCondition` (src/src/index.ts:342-376): switch on
the operator symbol; unrecognised operators fall through to `false`. -/
def evaluateCondition (item : JRec) (condition : JCond) : Bool :=
  let fieldValue := getNestedValue item condition.field
  if condition.operator == "=" then jsStrictEq fieldValue condition.value
  else if condition.operator == "!=" then !(jsStrictEq fieldValue condition.value)
  else if condition.operator == ">" then numGate (fun a b => decide (b < a)) fieldValue condition.value
  else if condition.operator == "<" then numGate (fun a b => decide (a < b)) fieldValue condition.value
  else if condition.operator == ">=" then numGate (fun a b => decide (b ≤ a)) fieldValue condition.value
  else if condition.operator == "<=" then numGate (fun a b => decide (a ≤ b)) fieldValue condition.value
  else if condition.operator == "contains" then strGate jsIncludes fieldValue condition.value
  else if condition.operator == "startsWith" then strGate jsStartsWithB fieldValue condition.value
  else if condition.operator == "endsWith" then strGate jsEndsWithB fieldValue condition.value
  else false

/-- `c[key] = v` on a container.  On arrays: canonical indices write (or
extend) the element list — the gap of a write past the end reads back as
undefined, like JavaScript holes — and other non-`length` keys write string
properties.  Assigning `length` runs the ECMAScript array length setter:
a valid length value (an integer in `[0, 2^32)`) truncates or extends the
element list; any other value raises `RangeError` in JavaScript, a throw
this total model cannot express — that branch leaves the array unchanged
and, like the `__proto__` setter, is fenced out of every claim about nested
writes by the `setSegsSafe` hypothesis. -/
def containerSet : JVal → String → JVal → JVal
  | .vObj fs, k, v => .vObj (setKey fs k v)
  | .vArr es ps, k, v =>
      if k == "length" then
        match v with
        | .vNum q =>
            if q.den == 1 && decide (0 ≤ q.num) && decide (q.num < 4294967296) then
              .vArr (es.take q.num.toNat ++
                List.replicate (q.num.toNat - es.length) .vUndefined) ps
            else .vArr es ps
        | _ => .vArr es ps
      else
        match canonicalIndex k with
        | some i =>
            if i < es.length then .vArr (es.set i v) ps
            else .vArr (es ++ List.replicate (i - es.length) .vUndefined ++ [v]) ps
        | none => .vArr es (setKey ps k v)
  | c, _, _ => c

/-- The container the descent continues into after one intermediate
segment: the guard `!(key in current) || typeof current[key] !== 'object'
|| current[key] === null` replaces the slot with a fresh empty map, else
the walk descends into the existing map or array. -/
def setChild (c : JVal) (k : String) : JVal :=
  match containerGetRaw c k with
  | some w => if isObjLike w then w else JVal.vObj []
  | none => JVal.vObj []

/-- The descent loop of `setNestedValue`: for each key before the last,
replace-or-descend via `setChild`, then assign the last key in the
container reached. -/
def setNestedGo : JVal → List String → JVal → JVal
  | c, [], _ => c
  | c, [k], v => containerSet c k v
  | c, k :: k2 :: ks, v =>
      containerSet c k (setNestedGo (setChild c k) (k2 :: ks) v)

/-- `setNestedValue` (src/src/index.ts:195-212 and 464-481 — the two copies
are textually identical): split the path on `.` and walk/mutate. -/
def setNestedValue (obj : JRec) (path : String) (value : JVal) : JRec :=
  match setNestedGo (.vObj obj) (splitOnDot path) value with
  | .vObj fs => fs
  | _ => obj

/-- The mutable state of a `QueryBuilder`: the backing array reference, the
working copy, and the recorded parsed conditions.  Polymorphic in the
element type so that elements can be read as object identities where a
claim is about reference identity. -/
structure QueryBuilderState (α : Type) where
  originalData : List α
  data : List α
  conditions : List JCond

/-- The `QueryBuilder` constructor (src/src/index.ts:245-249): the working
copy starts as a copy of the backing array. -/
def mkBuilder {α : Type} (d : List α) : QueryBuilderState α :=
  { originalData := d, data := d, conditions := [] }

/-- A `where` argument: a condition string or a predicate function. -/
inductive WhereArg where
  | strCond (s : String)
  | fnPred (p : JRec → Bool)

/-- `QueryBuilder.where` (src/src/index.ts:320-333): a function filters the
working copy directly; a string is parsed, and on success filters the
working copy and is recorded — on failure the state is untouched. -/
def whereStep (b : QueryBuilderState JRec) : WhereArg → QueryBuilderState JRec
  | .fnPred p => { b with data := b.data.filter p }
  | .strCond s =>
      match parseCondition s with
      | none => b
      | some c =>
          { b with
            conditions := b.conditions ++ [c],
            data := b.data.filter (fun item => evaluateCondition item c) }

/-- The membership test of the JavaScript `Set` built by `delete`
(`Set.prototype.has`, reference identity modelled by decidable equality). -/
def memB {α : Type} [DecidableEq α] (x : α) (l : List α) : Bool :=
  decide (x ∈ l)

/-- The descending-index splice loop of `QueryBuilder.delete`:
`for (let i = length - 1; i >= 0; i--) if (memb arr[i]) arr.splice(i, 1)`.
`i + 1` is the loop counter; index `i` is inspected next. -/
def runDelete {α : Type} (memb : α → Bool) : Nat → List α → List α
  | 0, arr => arr
  | i + 1, arr =>
      if h : i < arr.length then
        runDelete memb i (if memb arr[i] then arr.eraseIdx i else arr)
      else runDelete memb i arr

/-- `QueryBuilder.delete` (src/src/index.ts:265-276): capture the working
copy's size, remove from the backing array (by descending index) the
elements in the working copy's membership set, empty the working copy, and
return the captured count.  Set membership is reference identity, modelled
by equality of the element type. -/
def builderDelete {α : Type} [DecidableEq α] (b : QueryBuilderState α) :
    Nat × QueryBuilderState α :=
  (b.data.length,
    { originalData :=
        runDelete (fun x => memB x b.data) b.originalData.length b.originalData,
      data := [],
      conditions := b.conditions })

/-- `Jsonary.deleteWhere` with a string condition (src/src/index.ts:41-56):
forward filter of the backing array, count by length difference.  The file
write of `saveData` is out of scope. -/
def deleteWhereStr (data : List JRec) (condition : String) : List JRec × Nat :=
  let initialLength := data.length
  let newData :=
    match parseCondition condition with
    | some parsed => data.filter (fun item => !(evaluateCondition item parsed))
    | none => data
  (newData, initialLength - newData.length)

/-- One patch entry applied to a record: a dotted key goes through
`setNestedValue`, a plain key is a direct top-level write
(src/src/index.ts:128-135). -/
def applyPatchKey (item : JRec) (k : String) (v : JVal) : JRec :=
  if hasDotChar k then setNestedValue item k v else setKey item k v

/-- A whole patch object applied in key order. -/
def applyPatch (item : JRec) (patch : List (String × JVal)) : JRec :=
  patch.foldl (fun it kv => applyPatchKey it kv.1 kv.2) item

/-- The per-item match test of `Jsonary.updateWhere` with a string
condition: parse (via a throwaway builder), evaluate; an unparseable
condition matches nothing. -/
def shouldUpdateB (condition : String) (item : JRec) : Bool :=
  match parseCondition condition with
  | some parsed => evaluateCondition item parsed
  | none => false

/-- `Jsonary.updateWhere` with a string condition (src/src/index.ts:112-141):
patch every matching record in place, count the matches. -/
def updateWhereStr (data : List JRec) (condition : String) (patch : List (String × JVal)) :
    List JRec × Nat :=
  (data.map (fun item => if shouldUpdateB condition item then applyPatch item patch else item),
   data.countP (fun item => shouldUpdateB condition item))

/-- Specification-side reading of "occurrence of `pat` at index `i`". -/
def occursAt (s pat : String) (i : Nat) : Bool :=
  hasPre pat.toList (s.toList.drop i)

/-- Specification-side reading of "first (leftmost) occurrence": the least
index at which the pattern occurs, found by ascending search. -/
def specLeftmost (s pat : String) : Option Nat :=
  (List.range (s.toList.length + 1)).find? (fun i => occursAt s pat i)

/-- The operator order the code actually realises (stable sort by
descending length over the constant table's insertion order): `contains`
is tried before `endsWith`, unlike the claimed order. -/
def amendedOperatorOrder : List String :=
  ["startsWith", "contains", "endsWith", "!=", ">=", "<=", "=", ">", "<"]

/-- Specification-side operator selection: the first operator of the list
that occurs anywhere in `s` wins, at the leftmost occurrence of that
operator. -/
def specFirstOp : List String → String → Option (String × Nat)
  | [], _ => none
  | op :: ops, s =>
      match specLeftmost s op with
      | some i => some (op, i)
      | none => specFirstOp ops s

/-- Specification-side reading of the quote-stripping rule: remove one
layer when both ends are the same quote character. -/
def dequoteSpec (s : String) : String :=
  let cs := s.toList
  let dq : Char := '"'
  let sq : Char := Char.ofNat 39
  match cs.head?, cs.getLast? with
  | some a, some b =>
      if (a == dq && b == dq) || (a == sq && b == sq) then ((cs.drop 1).dropLast).asString
      else s
  | _, _ => s

/-- Specification-side reading of the literal coercion rule: the four
special literals, then any other non-empty numeric-parseable literal to its
number, and every other literal to the literal string unchanged. -/
def coerceSpec (t : String) : JVal :=
  if t == "true" then .vBool true
  else if t == "false" then .vBool false
  else if t == "null" then .vNull
  else if t == "undefined" then .vUndefined
  else if t != "" then
    match jsToNumber t with
    | some q => .vNum q
    | none => .vStr t
  else .vStr t

/-- Specification-side presence of a dot path in a value: each segment must
be an own property of the container reached (maps by key; arrays by
`length`, in-bounds canonical index, or string property). -/
def pathPresent : JVal → List String → Bool
  | _, [] => true
  | c, k :: ks =>
      match containerGetRaw c k with
      | some w => pathPresent w ks
      | none => false

/-- Presence of a field path in a record. -/
def fieldPresent (item : JRec) (path : String) : Bool :=
  pathPresent (.vObj item) (splitOnDot path)

/-- The string-keyed members a plain object inherits from
`Object.prototype` (ECMAScript 2024), plus the `__proto__` accessor:
property reads of these names do not yield the undefined sentinel, and
writes to `__proto__` run a setter instead of creating an own property. -/
def objectProtoNames : List String :=
  ["constructor", "hasOwnProperty", "isPrototypeOf", "propertyIsEnumerable",
   "toLocaleString", "toString", "valueOf", "__defineGetter__",
   "__defineSetter__", "__lookupGetter__", "__lookupSetter__", "__proto__"]

/-- The string-keyed members an array additionally inherits from
`Array.prototype` (ECMAScript 2024). -/
def arrayProtoNames : List String :=
  ["at", "concat", "copyWithin", "entries", "every", "fill", "filter",
   "find", "findIndex", "findLast", "findLastIndex", "flat", "flatMap",
   "forEach", "includes", "indexOf", "join", "keys", "lastIndexOf", "map",
   "pop", "push", "reduce", "reduceRight", "reverse", "shift", "slice",
   "some", "sort", "splice", "toLocaleString", "toReversed", "toSorted",
   "toSpliced", "toString", "unshift", "values", "with"]

/-- The inherited member names visible on a value when it is indexed (the
dot-path walk only ever indexes maps and arrays). -/
def inheritedNames : JVal → List String
  | .vObj _ => objectProtoNames
  | .vArr _ _ => arrayProtoNames ++ objectProtoNames
  | _ => []

/-- The prototype fence for dot-path *reads*: no segment the walk actually
looks up is an inherited member name of its receiver.  Own properties
shadow the prototype, so after an own hit the walk continues into the
stored value; after a clean miss (neither own nor inherited) JavaScript
reads `undefined` and the walk stops, so later segments are never looked
up.  On paths satisfying this fence, JavaScript property reads coincide
with the own-property reads of `containerGetRaw`. -/
def pathFreeOfProto : JVal → List String → Bool
  | _, [] => true
  | c, k :: ks =>
      !((inheritedNames c).contains k) &&
        (match containerGetRaw c k with
         | some w => pathFreeOfProto w ks
         | none => true)

/-- The fence for one nested-write segment: assigning `__proto__` runs the
prototype setter, and assigning `length` on an array runs the array length
setter (resize or `RangeError`); both are excluded.  Every other write is
an own-property (or element) write, as modelled by `containerSet` —
inherited names other than `__proto__` hold functions, which the guard of
`setNestedValue` replaces with a fresh own map exactly as an absent key. -/
def setKeySafe (c : JVal) (k : String) : Bool :=
  !(k == "__proto__") && !(isArrB c && k == "length")

/-- The prototype/length fence for a whole nested write: every segment the
descent assigns is safe, walking the same replace-or-descend chain as
`setNestedGo`. -/
def setSegsSafe : JVal → List String → Bool
  | _, [] => true
  | c, [k] => setKeySafe c k
  | c, k :: k2 :: ks => setKeySafe c k && setSegsSafe (setChild c k) (k2 :: ks)

/-- Specification-side nested write, per the amended claim: descend into an
existing map or array at an intermediate segment; any other existing value,
or an absent key, is replaced by a fresh empty map before descending; the
last segment is assigned in the container reached. -/
def setNestedSpec : JVal → List String → JVal → JVal
  | c, [], _ => c
  | c, [k], v => containerSet c k v
  | c, k :: k2 :: ks, v =>
      match containerGetRaw c k with
      | some (.vObj fs) => containerSet c k (setNestedSpec (.vObj fs) (k2 :: ks) v)
      | some (.vArr es ps) => containerSet c k (setNestedSpec (.vArr es ps) (k2 :: ks) v)
      | _ => containerSet c k (setNestedSpec (.vObj []) (k2 :: ks) v)

/-- No operator symbol occurs anywhere in the condition string. -/
def noOperatorOccurs (s : String) : Bool :=
  getOperatorsSorted.all (fun op => !(jsIncludes s op))

theorem filter_length_split {α : Type} (p : α → Bool) :
    ∀ (l : List α), (l.filter p).length + (l.filter (fun x => !(p x))).length = l.length := by
  intro l
  induction l with
  | nil => simp
  | cons x xs ih =>
      by_cases h : p x = true <;> simp [List.filter_cons, h, ← ih] <;> omega

theorem runDelete_take_drop {α : Type} (memb : α → Bool) :
    ∀ (i : Nat) (l : List α), i ≤ l.length →
      runDelete memb i l = (l.take i).filter (fun x => !(memb x)) ++ l.drop i := by
  intro i
  induction i with
  | zero => intro l _; simp [runDelete]
  | succ i ih =>
      intro l h
      have hi : i < l.length := h
      rw [runDelete, dif_pos hi]
      by_cases hm : memb l[i] = true
      · rw [if_pos hm]
        have hlen : i ≤ (l.eraseIdx i).length := by
          rw [List.length_eraseIdx_of_lt hi]; omega
        rw [ih _ hlen, List.eraseIdx_eq_take_drop_succ]
        have htl : (l.take i).length = i := List.length_take_of_le (Nat.le_of_lt hi)
        have hstep : (l.take (i + 1)).filter (fun x => !(memb x)) =
            (l.take i).filter (fun x => !(memb x)) := by
          rw [List.take_succ, List.getElem?_eq_getElem hi]
          simp only [Option.toList_some, List.filter_append, List.filter_cons, hm,
            Bool.not_true, List.filter_nil, List.append_nil, if_false,
            Bool.false_eq_true, ite_false]
        rw [List.take_left' htl, List.drop_left' htl, hstep]
      · rw [if_neg hm]
        have hb : memb l[i] = false := by
          cases hmb : memb l[i] with
          | true => exact absurd hmb hm
          | false => rfl
        have hstep : (l.take (i + 1)).filter (fun x => !(memb x)) =
            (l.take i).filter (fun x => !(memb x)) ++ [l[i]] := by
          rw [List.take_succ, List.getElem?_eq_getElem hi]
          simp only [Option.toList_some, List.filter_append, List.filter_cons, hb,
            Bool.not_false, List.filter_nil, if_true, ite_true]
        rw [ih _ (Nat.le_of_lt hi), hstep, List.drop_eq_getElem_cons hi]
        simp

theorem runDelete_eq_filter {α : Type} (memb : α → Bool) (l : List α) :
    runDelete memb l.length l = l.filter (fun x => !(memb x)) := by
  rw [runDelete_take_drop memb l.length l (Nat.le_refl _)]
  simp

/-- **C2** — For every backing array and every working copy (the theorem
quantifies over all builder states, hence over all states reachable by
chained `where` calls, with elements of an arbitrary type standing for
object identities): `delete()` returns the working copy's size at the
moment of the call, the backing array afterwards consists of exactly the
elements not identical to a working-copy member, in their original relative
order (the descending-index splice scan equals a forward filter), and the
working copy is left empty. -/
theorem builderDelete_spec {α : Type} [DecidableEq α] (b : QueryBuilderState α) :
    builderDelete b = (b.data.length,
      { originalData := b.originalData.filter (fun x => !(memB x b.data)),
        data := [],
        conditions := b.conditions }) := by
  unfold builderDelete
  rw [runDelete_eq_filter]

theorem claim_C2 (α : Type) [DecidableEq α] (b : QueryBuilderState α) :
    (builderDelete b).1 = b.data.length ∧
    (builderDelete b).2.originalData =
      b.originalData.filter (fun x => !(memB x b.data)) ∧
    (builderDelete b).2.data = [] := by
  rw [builderDelete_spec]
  exact ⟨rfl, rfl, rfl⟩

theorem whereStep_data_sublist (b : QueryBuilderState JRec) (w : WhereArg) :
    List.Sublist (whereStep b w).data b.data := by
  cases w with
  | fnPred p =>
      simp only [whereStep]
      exact List.filter_sublist _
  | strCond s =>
      simp only [whereStep]
      cases h : parseCondition s with
      | none => exact List.Sublist.refl _
      | some c => exact List.filter_sublist _

/-- **C9** — Chained `where` calls only narrow the working copy: one step
leaves the working copy a subsequence of what it was (so its size cannot
grow), and any sequence of chained calls leaves it a subsequence of the
initial working copy; no transition widens it. -/
theorem claim_C9 (b : QueryBuilderState JRec) (w : WhereArg) (args : List WhereArg) :
    List.Sublist (whereStep b w).data b.data ∧
    (whereStep b w).data.length ≤ b.data.length ∧
    List.Sublist ((args.foldl whereStep b).data) b.data := by
  refine ⟨whereStep_data_sublist b w, (whereStep_data_sublist b w).length_le, ?_⟩
  induction args generalizing b with
  | nil => exact List.Sublist.refl _
  | cons a as ih =>
      simp only [List.foldl_cons]
      exact (ih (whereStep b a)).trans (whereStep_data_sublist b a)

theorem findOpSplit_isSome (ops : List String) (s : String) :
    (findOpSplit ops s).isSome = ops.any (fun op => jsIncludes s op) := by
  induction ops with
  | nil => rfl
  | cons op rest ih =>
      simp only [findOpSplit, List.any_cons, jsIncludes]
      cases h : jsIndexOf s op with
      | some i => simp [h]
      | none => simp [h, ih, jsIncludes]

/-- **C10** — `parseCondition` succeeds exactly when some operator symbol
occurs as a substring of the condition string, with no validation of the
field part: `"= 5"` parses to the empty field, operator `=`, number `5`;
a string with no operator symbol parses to `none`. -/
theorem claim_C10 :
    (∀ s, (parseCondition s).isSome = getOperatorsSorted.any (fun op => jsIncludes s op)) ∧
    parseCondition "= 5" = some { field := "", operator := "=", value := .vNum 5 } ∧
    parseCondition "hello world" = none := by
  refine ⟨?_, by decide, by decide⟩
  intro s
  rw [← findOpSplit_isSome]
  unfold parseCondition
  cases h : findOpSplit getOperatorsSorted s with
  | none => simp [h]
  | some x => cases x with
      | mk op i => simp [h]

theorem findOpSplit_none_of_all (s : String) :
    ∀ (ops : List String), (∀ op ∈ ops, jsIncludes s op = false) → findOpSplit ops s = none := by
  intro ops
  induction ops with
  | nil => intro _; rfl
  | cons op rest ih =>
      intro h
      have h1 : jsIncludes s op = false := h op (List.mem_cons_self op rest)
      have h2 : jsIndexOf s op = none := by
        cases h' : jsIndexOf s op with
        | none => rfl
        | some i =>
            exfalso
            have : jsIncludes s op = true := by simp [jsIncludes, h']
            rw [this] at h1
            cases h1
      simp only [findOpSplit, h2]
      exact ih (fun o ho => h o (List.mem_cons_of_mem _ ho))

theorem parseCondition_none_of_noOp (s : String) (h : noOperatorOccurs s = true) :
    parseCondition s = none := by
  unfold parseCondition
  rw [findOpSplit_none_of_all s getOperatorsSorted ?_]
  intro op hop
  have := (List.all_eq_true.mp h) op hop
  simpa using this

/-- **C8** — A condition string in which no operator symbol occurs never
raises (everything is a total function here): `where` returns the builder
state unchanged, and the direct `deleteWhere`/`updateWhere` paths leave the
record array unchanged and report `0` affected records. -/
theorem claim_C8 (s : String) (h : noOperatorOccurs s = true) :
    (∀ b : QueryBuilderState JRec, whereStep b (.strCond s) = b) ∧
    (∀ data : List JRec, deleteWhereStr data s = (data, 0)) ∧
    (∀ (data : List JRec) (patch : List (String × JVal)),
      updateWhereStr data s patch = (data, 0)) := by
  have hp := parseCondition_none_of_noOp s h
  refine ⟨?_, ?_, ?_⟩
  · intro b
    simp only [whereStep, hp]
  · intro data
    simp [deleteWhereStr, hp]
  · intro data patch
    have hs : ∀ item, shouldUpdateB s item = false := by
      intro item
      simp [shouldUpdateB, hp]
    simp [updateWhereStr, hs]

/-- Witness for C8 at the operator-free string `"hello world"`. -/
theorem claim_C8_witness :
    whereStep (mkBuilder [[("a", JVal.vNum 1)]]) (.strCond "hello world") =
      mkBuilder [[("a", JVal.vNum 1)]] ∧
    deleteWhereStr [[("a", JVal.vNum 1)]] "hello world" = ([[("a", JVal.vNum 1)]], 0) ∧
    updateWhereStr [[("a", JVal.vNum 1)]] "hello world" [("b", JVal.vNum 2)] =
      ([[("a", JVal.vNum 1)]], 0) := by
  have h := claim_C8 "hello world" (by decide)
  exact ⟨h.1 _, h.2.1 _, h.2.2 _ _⟩

/-- **C3** — For every record array and every condition string that parses,
the store's direct `deleteWhere` (forward filter) and the builder chain
`where(condition).delete()` (reverse-index splice against the membership
set of the filtered working copy) leave the same record array, with the
surviving elements in the same relative order, and report the same count. -/
theorem claim_C3 (data : List JRec) (s : String) (c : JCond)
    (h : parseCondition s = some c) :
    (deleteWhereStr data s).1 =
      (builderDelete (whereStep (mkBuilder data) (.strCond s))).2.originalData ∧
    (deleteWhereStr data s).2 =
      (builderDelete (whereStep (mkBuilder data) (.strCond s))).1 := by
  have hwhere : whereStep (mkBuilder data) (.strCond s) =
      { originalData := data,
        data := data.filter (fun item => evaluateCondition item c),
        conditions := [c] } := by
    simp [whereStep, mkBuilder, h]
  have hval : ∀ x ∈ data, (!(evaluateCondition x c)) =
      (!(memB x (data.filter (fun item => evaluateCondition item c)))) := by
    intro x hx
    by_cases he : evaluateCondition x c = true
    · have hmem : x ∈ data.filter (fun item => evaluateCondition item c) :=
        List.mem_filter.mpr ⟨hx, he⟩
      unfold memB
      simp [he, hmem]
    · have he' : evaluateCondition x c = false := by
        revert he
        cases evaluateCondition x c <;> simp
      have hmem : x ∉ data.filter (fun item => evaluateCondition item c) := by
        intro hmem
        rw [(List.mem_filter.mp hmem).2] at he'
        cases he'
      unfold memB
      simp [he', hmem]
  constructor
  · have h1 : (deleteWhereStr data s).1 =
        data.filter (fun item => !(evaluateCondition item c)) := by
      simp [deleteWhereStr, h]
    have h2 : (builderDelete (whereStep (mkBuilder data) (.strCond s))).2.originalData =
        data.filter
          (fun x => !(memB x (data.filter (fun item => evaluateCondition item c)))) := by
      rw [hwhere, builderDelete_spec]
    rw [h1, h2]
    exact List.filter_congr hval
  · have h1 : (deleteWhereStr data s).2 =
        data.length - (data.filter (fun item => !(evaluateCondition item c))).length := by
      simp [deleteWhereStr, h]
    have h2 : (builderDelete (whereStep (mkBuilder data) (.strCond s))).1 =
        (data.filter (fun item => evaluateCondition item c)).length := by
      rw [hwhere, builderDelete_spec]
    rw [h1, h2]
    have hsplit := filter_length_split (fun item => evaluateCondition item c) data
    omega

/-- Witness for C3 at the spec's own example: `deleteWhere('age < 18')` on
`[age:10, age:20, age:5]`. -/
theorem claim_C3_witness :
    (deleteWhereStr [[("age", JVal.vNum 10)], [("age", JVal.vNum 20)], [("age", JVal.vNum 5)]]
        "age < 18").1 =
      (builderDelete (whereStep
        (mkBuilder [[("age", JVal.vNum 10)], [("age", JVal.vNum 20)], [("age", JVal.vNum 5)]])
        (.strCond "age < 18"))).2.originalData ∧
    (deleteWhereStr [[("age", JVal.vNum 10)], [("age", JVal.vNum 20)], [("age", JVal.vNum 5)]]
        "age < 18").2 =
      (builderDelete (whereStep
        (mkBuilder [[("age", JVal.vNum 10)], [("age", JVal.vNum 20)], [("age", JVal.vNum 5)]])
        (.strCond "age < 18"))).1 :=
  claim_C3 _ "age < 18" { field := "age", operator := "<", value := .vNum 18 } (by decide)

theorem numGate_true_iff (p : ℚ → ℚ → Bool) (x y : JVal) :
    numGate p x y = true ↔ ∃ a b : ℚ, x = .vNum a ∧ y = .vNum b ∧ p a b = true := by
  cases x <;> cases y <;> simp [numGate]

theorem strGate_true_iff (p : String → String → Bool) (x y : JVal) :
    strGate p x y = true ↔ ∃ a b : String, x = .vStr a ∧ y = .vStr b ∧ p a b = true := by
  cases x <;> cases y <;> simp [strGate]

/-- **C6** — The evaluator is a total pure function of the record and the
parsed condition (totality and absence of exceptions hold by construction
of the embedding); the ordering operators return `true` exactly when both
the resolved field value and the condition value are numbers standing in
the relation (no coercion), and the three string operators return `true`
exactly when both sides are strings standing in the string relation. -/
theorem claim_C6 (item : JRec) (f : String) (v : JVal) :
    (evaluateCondition item { field := f, operator := ">", value := v } = true ↔
      ∃ a b : ℚ, getNestedValue item f = .vNum a ∧ v = .vNum b ∧ b < a) ∧
    (evaluateCondition item { field := f, operator := "<", value := v } = true ↔
      ∃ a b : ℚ, getNestedValue item f = .vNum a ∧ v = .vNum b ∧ a < b) ∧
    (evaluateCondition item { field := f, operator := ">=", value := v } = true ↔
      ∃ a b : ℚ, getNestedValue item f = .vNum a ∧ v = .vNum b ∧ b ≤ a) ∧
    (evaluateCondition item { field := f, operator := "<=", value := v } = true ↔
      ∃ a b : ℚ, getNestedValue item f = .vNum a ∧ v = .vNum b ∧ a ≤ b) ∧
    (evaluateCondition item { field := f, operator := "contains", value := v } = true ↔
      ∃ a b : String, getNestedValue item f = .vStr a ∧ v = .vStr b ∧ jsIncludes a b = true) ∧
    (evaluateCondition item { field := f, operator := "startsWith", value := v } = true ↔
      ∃ a b : String, getNestedValue item f = .vStr a ∧ v = .vStr b ∧ jsStartsWithB a b = true) ∧
    (evaluateCondition item { field := f, operator := "endsWith", value := v } = true ↔
      ∃ a b : String, getNestedValue item f = .vStr a ∧ v = .vStr b ∧ jsEndsWithB a b = true) := by
  refine ⟨?_, ?_, ?_, ?_, ?_, ?_, ?_⟩
  · have hr : evaluateCondition item { field := f, operator := ">", value := v } =
        numGate (fun a b => decide (b < a)) (getNestedValue item f) v := rfl
    rw [hr, numGate_true_iff]
    simp
  · have hr : evaluateCondition item { field := f, operator := "<", value := v } =
        numGate (fun a b => decide (a < b)) (getNestedValue item f) v := rfl
    rw [hr, numGate_true_iff]
    simp
  · have hr : evaluateCondition item { field := f, operator := ">=", value := v } =
        numGate (fun a b => decide (b ≤ a)) (getNestedValue item f) v := rfl
    rw [hr, numGate_true_iff]
    simp
  · have hr : evaluateCondition item { field := f, operator := "<=", value := v } =
        numGate (fun a b => decide (a ≤ b)) (getNestedValue item f) v := rfl
    rw [hr, numGate_true_iff]
    simp
  · have hr : evaluateCondition item { field := f, operator := "contains", value := v } =
        strGate jsIncludes (getNestedValue item f) v := rfl
    rw [hr, strGate_true_iff]
  · have hr : evaluateCondition item { field := f, operator := "startsWith", value := v } =
        strGate jsStartsWithB (getNestedValue item f) v := rfl
    rw [hr, strGate_true_iff]
  · have hr : evaluateCondition item { field := f, operator := "endsWith", value := v } =
        strGate jsEndsWithB (getNestedValue item f) v := rfl
    rw [hr, strGate_true_iff]

theorem hasPre_single_eq_head (c : Char) (cs : List Char) :
    hasPre [c] cs = (match cs.head? with
      | some a => a == c
      | none => false) := by
  cases cs with
  | nil => rfl
  | cons x xs =>
      simp [hasPre, Bool.and_true]
      exact eq_comm

theorem parseSpecialValue_eq_coerceSpec (t : String) : parseSpecialValue t = coerceSpec t := by
  unfold parseSpecialValue coerceSpec
  by_cases h1 : (t == "true") = true
  · simp [h1]
  · by_cases h2 : (t == "false") = true
    · simp [h1, h2]
    · by_cases h3 : (t == "null") = true
      · simp [h1, h2, h3]
      · by_cases h4 : (t == "undefined") = true
        · simp [h1, h2, h3, h4]
        · cases hn : jsToNumber t <;> by_cases he : (t != "") = true <;>
            simp [h1, h2, h3, h4, hn, he]

theorem stripQuotes_eq_dequoteSpec (s : String) : stripQuotes s = dequoteSpec s := by
  have e2 : hasPre ['"'] s.toList.reverse =
      (match s.toList.getLast? with
        | some a => a == '"'
        | none => false) := by
    rw [hasPre_single_eq_head, List.head?_reverse]
  have e4 : hasPre [Char.ofNat 39] s.toList.reverse =
      (match s.toList.getLast? with
        | some a => a == Char.ofNat 39
        | none => false) := by
    rw [hasPre_single_eq_head, List.head?_reverse]
  simp only [stripQuotes, dequoteSpec, hasPre_single_eq_head, e2, e4]
  cases h1 : s.toList.head? with
  | none => cases h2 : s.toList.getLast? <;> simp
  | some a =>
      cases h2 : s.toList.getLast? with
      | none => simp
      | some b => simp

/-- **C7** — The right-hand literal pipeline of the parser (trim is applied
upstream by `parseCondition`): after one layer of matching surrounding
quotes is stripped, the literal is coerced exactly as the claim reads —
`true`/`false` to booleans, `null` to null, `undefined` to the sentinel,
any other non-empty numeric-parseable literal to its number, and every
other literal to the literal string unchanged (`dequoteSpec`/`coerceSpec`
are stated from the claim's words). -/
theorem claim_C7 (s : String) :
    parseSpecialValue (stripQuotes s) = coerceSpec (dequoteSpec s) := by
  rw [stripQuotes_eq_dequoteSpec, parseSpecialValue_eq_coerceSpec]

theorem resolveList_of_not_present :
    ∀ (ks : List String) (c : JVal), pathPresent c ks = false → resolveList c ks = .vUndefined := by
  intro ks
  induction ks with
  | nil =>
      intro c h
      simp [pathPresent] at h
  | cons k ks ih =>
      intro c h
      unfold pathPresent at h
      unfold resolveList
      by_cases hobj : isObjLike c = true
      · rw [if_pos hobj]
        cases hg : containerGetRaw c k with
        | none =>
            have hd : containerGetD c k = .vUndefined := by simp [containerGetD, hg]
            rw [hd]
            cases ks with
            | nil => rfl
            | cons k2 ks2 => simp [resolveList, isObjLike]
        | some w =>
            rw [hg] at h
            have hd : containerGetD c k = w := by simp [containerGetD, hg]
            rw [hd]
            exact ih w h
      · rw [if_neg hobj]

theorem splitDotAux_no_dot :
    ∀ (cs acc : List Char), (cs.all (fun c => !(c == '.'))) = true →
      splitDotAux cs acc = [(acc.reverse ++ cs).asString] := by
  intro cs
  induction cs with
  | nil => intro acc _; simp [splitDotAux]
  | cons c cs ih =>
      intro acc h
      simp only [List.all_cons, Bool.and_eq_true] at h
      have h1 : (c == '.') = false := by
        revert h
        cases c == '.' <;> simp
      unfold splitDotAux
      rw [h1]
      simp only [if_false, Bool.false_eq_true, ite_false]
      rw [ih (c :: acc) h.2]
      simp

theorem asString_toList (s : String) : (s.toList).asString = s := rfl

theorem splitOnDot_no_dot (s : String) (h : hasDotChar s = false) : splitOnDot s = [s] := by
  unfold splitOnDot
  have hall : (s.toList.all (fun c => !(c == '.'))) = true := by
    unfold hasDotChar at h
    rw [List.all_eq_true]
    intro c hc
    rw [List.any_eq_false] at h
    simp [h c hc]
  rw [splitDotAux_no_dot _ _ hall]
  simp only [List.reverse_nil, List.nil_append]
  rw [asString_toList]

/-- **C5 (amended)** — For every record, every field path that is *not
present* in the record — presence walking both maps and arrays (arrays
expose `length`, their in-bounds canonical indices, and attached string
properties), which subsumes the case of a path passing through a value
that is neither map nor array — and whose resolution touches no
prototype-inherited member name (`pathFreeOfProto` over the pinned
`Object.prototype`/`Array.prototype` catalogues, `__proto__` included:
JavaScript resolves such segments to inherited members, not to the
sentinel, so they lie outside this claim), and every value `v`, the
condition `field = v` evaluates to true exactly when `v` is the undefined
sentinel.  The prototype fence confines the statement to the paths where
the own-property reads of the model coincide with JavaScript property
reads, which is why the proof does not consume it.  The original claim is
wrong both for arrays — dot paths do traverse them (see the
counterexample) — and for inherited names such as `toString`, which
resolve to a function although they are not present in the record. -/
theorem claim_C5 (item : JRec) (f : String) (v : JVal)
    (h : fieldPresent item f = false)
    (_hp : pathFreeOfProto (.vObj item) (splitOnDot f) = true) :
    (evaluateCondition item { field := f, operator := "=", value := v } = true ↔
      v = .vUndefined) := by
  have hre : getNestedValue item f = .vUndefined := by
    unfold getNestedValue
    by_cases hd : hasDotChar f = true
    · rw [if_neg (by simp [hd])]
      exact resolveList_of_not_present _ _ h
    · have hd' : hasDotChar f = false := by
        revert hd
        cases hasDotChar f <;> simp
      rw [if_pos (by simp [hd'])]
      unfold fieldPresent at h
      rw [splitOnDot_no_dot f hd'] at h
      unfold pathPresent at h
      cases hg : recGet item f with
      | none => simp [recGetD, hg]
      | some w =>
          rw [show containerGetRaw (.vObj item) f = some w from by
            simpa [containerGetRaw] using hg] at h
          simp [pathPresent] at h
  have he : evaluateCondition item { field := f, operator := "=", value := v } =
      jsStrictEq (getNestedValue item f) v := rfl
  rw [he, hre]
  cases v <;> simp [jsStrictEq]

/-- Witness for C5 at the absent, prototype-free top-level field `age`. -/
theorem claim_C5_witness :
    evaluateCondition [("name", JVal.vStr "x")]
      { field := "age", operator := "=", value := JVal.vUndefined } = true :=
  (claim_C5 [("name", JVal.vStr "x")] "age" JVal.vUndefined (by decide) (by decide)).mpr rfl

/-- Counterexample to C5 as stated: in `R = [a: [5]]` the dot path `a.0`
passes through the value at segment `a`, which is an array — not a map —
yet resolution does not yield the sentinel: the condition `a.0 = 5`
evaluates to true although `5` is not the undefined sentinel. -/
theorem claim_C5_counterexample :
    isMap (getNestedValue [("a", JVal.vArr [JVal.vNum 5] [])] "a") = false ∧
    evaluateCondition [("a", JVal.vArr [JVal.vNum 5] [])]
      { field := "a.0", operator := "=", value := JVal.vNum 5 } = true ∧
    JVal.vNum 5 ≠ JVal.vUndefined := by
  refine ⟨by decide, by decide, by decide⟩

theorem setNestedGo_eq_spec :
    ∀ (ks : List String) (c : JVal) (v : JVal), setNestedGo c ks v = setNestedSpec c ks v := by
  intro ks
  induction ks with
  | nil => intro c v; rfl
  | cons k ks ih =>
      intro c v
      cases ks with
      | nil => rfl
      | cons k2 ks2 =>
          unfold setNestedGo setNestedSpec
          cases hg : containerGetRaw c k with
          | none => simp [setChild, hg, ih]
          | some w => cases w <;> simp [setChild, hg, isObjLike, ih]

/-- **C4 (amended)** — For patch paths that never assign `__proto__` and
never assign `length` on an array (`setSegsSafe`: such writes run
JavaScript setter semantics — prototype mutation, array resizing, or a
`RangeError` — and lie outside this claim), `update`/`updateWhere` set
dotted patch keys along the nested path: at an intermediate segment an
existing *map or array* is descended into in place, and any other existing
value (or absent key) is overwritten with a fresh empty map before
descending; patch keys without a dot (other than `__proto__`) are set
directly at the top level; and the claim's own example holds:
`updateWhere('name = John', [profile.active: true])` on `[[name: John]]`
yields `[[name: John, profile: [active: true]]]` with count 1.  On fenced
paths every write is an own-property write, where the model is exact, so
the fence hypotheses are not consumed by the proof.  The original claim's
"any existing non-map value is overwritten with a fresh empty map" is
wrong for arrays (see the counterexample). -/
theorem claim_C4 :
    (∀ (c : JVal) (ks : List String) (v : JVal), setSegsSafe c ks = true →
      setNestedGo c ks v = setNestedSpec c ks v) ∧
    (∀ (item : JRec) (path : String) (v : JVal),
      setSegsSafe (.vObj item) (splitOnDot path) = true →
      setNestedValue item path v =
        match setNestedSpec (.vObj item) (splitOnDot path) v with
        | .vObj fs => fs
        | _ => item) ∧
    (∀ (item : JRec) (k : String) (v : JVal), hasDotChar k = false →
      (k == "__proto__") = false →
      applyPatchKey item k v = setKey item k v) ∧
    updateWhereStr [[("name", JVal.vStr "John")]] "name = John"
        [("profile.active", JVal.vBool true)] =
      ([[("name", JVal.vStr "John"), ("profile", JVal.vObj [("active", JVal.vBool true)])]],
        1) := by
  refine ⟨fun c ks v _ => setNestedGo_eq_spec ks c v, ?_, ?_, by decide⟩
  · intro item path v _
    unfold setNestedValue
    rw [setNestedGo_eq_spec]
  · intro item k v h _
    unfold applyPatchKey
    rw [h]
    simp

/-- Witness for C4 at the claim's own dotted patch key and at a dotless
key, each fence discharged concretely. -/
theorem claim_C4_witness :
    setNestedGo (.vObj [("name", JVal.vStr "John")]) (splitOnDot "profile.active")
        (JVal.vBool true) =
      setNestedSpec (.vObj [("name", JVal.vStr "John")]) (splitOnDot "profile.active")
        (JVal.vBool true) ∧
    applyPatchKey [] "x" JVal.vNull = setKey [] "x" JVal.vNull :=
  ⟨claim_C4.1 (.vObj [("name", JVal.vStr "John")]) (splitOnDot "profile.active")
      (JVal.vBool true) (by decide),
    claim_C4.2.2.1 [] "x" JVal.vNull (by decide) (by decide)⟩

/-- Counterexample to C4 as stated: patching `[a.b: 1]` into the matched
record `[name: John, a: []]` (an empty array at the intermediate segment
`a`, an existing non-map value) does *not* overwrite `a` with a fresh empty
map — the code descends into the array and attaches `b` as an array
property, so the result differs from the claimed `[a: [b: 1]]`-as-map. -/
theorem claim_C4_counterexample :
    updateWhereStr [[("name", JVal.vStr "John"), ("a", JVal.vArr [] [])]] "name = John"
        [("a.b", JVal.vNum 1)] =
      ([[("name", JVal.vStr "John"), ("a", JVal.vArr [] [("b", JVal.vNum 1)])]], 1) ∧
    isMap (JVal.vArr [] []) = false ∧
    ([[("name", JVal.vStr "John"), ("a", JVal.vArr [] [("b", JVal.vNum 1)])]] : List JRec) ≠
      [[("name", JVal.vStr "John"), ("a", JVal.vObj [("b", JVal.vNum 1)])]] := by
  refine ⟨by decide, by decide, by decide⟩

theorem idxOfAux_eq (pat : List Char) :
    ∀ (l : List Char) (i0 : Nat),
      idxOfAux pat l i0 =
        ((List.range (l.length + 1)).find? (fun j => hasPre pat (l.drop j))).map
          (fun j => j + i0) := by
  intro l
  induction l with
  | nil =>
      intro i0
      unfold idxOfAux
      simp only [List.length_nil]
      rw [List.range_succ_eq_map, List.range_zero]
      cases h : hasPre pat [] <;> simp [List.find?, h]
  | cons c rest ih =>
      intro i0
      unfold idxOfAux
      simp only [List.length_cons]
      rw [List.range_succ_eq_map]
      by_cases h : hasPre pat (c :: rest) = true
      · rw [if_pos h]
        rw [List.find?_cons_of_pos _ (by simpa using h)]
        simp
      · rw [if_neg h, ih (i0 + 1)]
        rw [List.find?_cons_of_neg _ (by simpa using h)]
        rw [List.find?_map]
        have hcomp : ((fun j => hasPre pat ((c :: rest).drop j)) ∘ Nat.succ) =
            (fun j => hasPre pat (rest.drop j)) := by
          funext j
          simp [List.drop_succ_cons]
        rw [hcomp]
        cases hf : (List.range (rest.length + 1)).find? (fun j => hasPre pat (rest.drop j)) with
        | none => rfl
        | some j =>
            show some (j + (i0 + 1)) = some (j.succ + i0)
            exact congrArg some (by omega)

theorem jsIndexOf_eq_specLeftmost (s pat : String) : jsIndexOf s pat = specLeftmost s pat := by
  unfold jsIndexOf specLeftmost occursAt
  rw [idxOfAux_eq]
  cases hf : (List.range (s.toList.length + 1)).find?
      (fun j => hasPre pat.toList (s.toList.drop j)) with
  | none => rfl
  | some j =>
      show some (j + 0) = some j
      exact congrArg some (Nat.add_zero j)

theorem findOpSplit_eq_specFirstOp (ops : List String) (s : String) :
    findOpSplit ops s = specFirstOp ops s := by
  induction ops with
  | nil => rfl
  | cons op rest ih =>
      unfold findOpSplit specFirstOp
      rw [jsIndexOf_eq_specLeftmost]
      cases specLeftmost s op <;> simp [ih]

/-- **C1 (amended)** — The operator order the parser tries is the stable
descending-length order of the constant table: `startsWith`, then
`contains`, then `endsWith` (not `startsWith`/`endsWith` before
`contains`), then `!=`, `>=`, `<=`, then `=`, `>`, `<`.  The first symbol
in that order that occurs anywhere in the condition string wins, at that
symbol's leftmost occurrence (`specFirstOp` walks the explicit order using
the least-index characterization of first occurrence), and the parsed
condition's field is the trimmed prefix before the match index while the
value is coerced from the trimmed suffix after the symbol. -/
theorem claim_C1 :
    getOperatorsSorted = amendedOperatorOrder ∧
    (∀ s : String, findOpSplit getOperatorsSorted s = specFirstOp amendedOperatorOrder s) ∧
    (∀ (s op : String) (i : Nat),
      findOpSplit getOperatorsSorted s = some (op, i) →
      parseCondition s = some
        { field := jsTrim (takeChars s i),
          operator := op,
          value := parseSpecialValue
            (stripQuotes (jsTrim (dropChars s (i + op.toList.length)))) }) := by
  have hord : getOperatorsSorted = amendedOperatorOrder := by decide
  refine ⟨hord, ?_, ?_⟩
  · intro s
    rw [hord]
    exact findOpSplit_eq_specFirstOp _ s
  · intro s op i h
    unfold parseCondition
    rw [h]

/-- Witness for C1's parse-characterization conjunct at `"a <= 2"`, whose
first operator in the realized order is `<=` at index 2. -/
theorem claim_C1_witness :
    parseCondition "a <= 2" = some
      { field := jsTrim (takeChars "a <= 2" 2),
        operator := "<=",
        value := parseSpecialValue
          (stripQuotes (jsTrim (dropChars "a <= 2" (2 + "<=".toList.length)))) } :=
  claim_C1.2.2 "a <= 2" "<=" 2 (by decide)

/-- Counterexample to C1 as stated: the claim puts `endsWith` before
`contains`; the code tries `contains` first.  In `"x endsWith contains"`
the symbol `endsWith` occurs, yet the parser splits at `contains`,
producing field `"x endsWith"` with empty value — not the field `"x"` with
operator `endsWith` that the claimed order would produce. -/
theorem claim_C1_counterexample :
    jsIncludes "x endsWith contains" "endsWith" = true ∧
    parseCondition "x endsWith contains" =
      some { field := "x endsWith", operator := "contains", value := JVal.vStr "" } ∧
    (some { field := "x endsWith", operator := "contains", value := JVal.vStr "" } : Option JCond) ≠
      some { field := "x", operator := "endsWith", value := JVal.vStr "contains" } := by
  refine ⟨by decide, by decide, by decide⟩
